import Mathlib

/-!
Shallow embedding of the array-backed binary heap from
src/exercises/algorithm/algorithm9.rs, together with correctness theorems.

The Rust type `Heap<T>` stores `count : usize`, `items : Vec<T>` and a
`comparator : fn(&T, &T) -> bool`.  We model `Vec<T>` as `List α`, `usize`
indices as `Nat`, and `T::default()` via an `Inhabited α` instance
(`default`).  Rust indexing `items[i]` is modelled by `List.getD i default`.
The access-log functions further below record every vector index that the
Rust code reads or writes, so that memory safety can be stated; the fuel
variants make the termination of the two repair loops a provable statement.
-/

set_option maxHeartbeats 1000000
set_option linter.unusedVariables false

/-- Model of `Vec::swap i j`: exchange the elements at positions `i` and `j`. -/
def listSwap {α : Type} [Inhabited α] (l : List α) (i j : Nat) : List α :=
  (l.set i (l.getD j default)).set j (l.getD i default)

/-- Model of the Rust struct `Heap<T>`. -/
structure Heap (α : Type) where
  count : Nat
  items : List α
  comparator : α → α → Bool

namespace Heap

variable {α : Type}

/-- Model of `Heap::new`: empty heap with a default sentinel at index 0. -/
def new [Inhabited α] (comparator : α → α → Bool) : Heap α :=
  { count := 0, items := [default], comparator := comparator }

/-- Model of `Heap::len`. -/
def len (h : Heap α) : Nat :=
  h.count

/-- Model of `Heap::is_empty`. -/
def is_empty (h : Heap α) : Bool :=
  h.len == 0

/-- Model of `Heap::parent_idx`. -/
def parent_idx (h : Heap α) (idx : Nat) : Nat :=
  idx / 2

/-- Model of `Heap::left_child_idx`. -/
def left_child_idx (h : Heap α) (idx : Nat) : Nat :=
  idx * 2

/-- Model of `Heap::right_child_idx`. -/
def right_child_idx (h : Heap α) (idx : Nat) : Nat :=
  h.left_child_idx idx + 1

/-- Model of `Heap::children_present`. -/
def children_present (h : Heap α) (idx : Nat) : Bool :=
  h.left_child_idx idx ≤ h.count

/-- Model of `Heap::smallest_child_idx` (the `&&` in the Rust guard
short-circuits, so the two child slots are read only when the right child
index is within `count`; the returned index is the same either way). -/
def smallest_child_idx [Inhabited α] (h : Heap α) (idx : Nat) : Nat :=
  if h.right_child_idx idx ≤ h.count ∧
      h.comparator (h.items.getD (h.right_child_idx idx) default)
        (h.items.getD (h.left_child_idx idx) default) = true then
    h.right_child_idx idx
  else
    h.left_child_idx idx

/-- Model of the first half of `Heap::add`, before up-heap bubbling:
increment `count` and place `value` at the new index `count`. -/
def addRaw [Inhabited α] (h : Heap α) (value : α) : Heap α :=
  { h with
    count := h.count + 1,
    items :=
      if h.items.length ≤ h.count + 1 then h.items ++ [value]
      else h.items.set (h.count + 1) value }

/-- Model of the up-heap bubbling loop of `Heap::add`: while the current
index is not the root and the element outranks its parent, swap with the
parent and move up. -/
def upHeap [Inhabited α] (h : Heap α) (cur : Nat) : Heap α :=
  if 1 < cur ∧
      h.comparator (h.items.getD cur default) (h.items.getD (h.parent_idx cur) default) = true
  then
    upHeap { h with items := listSwap h.items cur (h.parent_idx cur) } (h.parent_idx cur)
  else
    h
termination_by cur
decreasing_by
  simp only [parent_idx]
  omega

/-- Model of `Heap::add`: insert, then repair upwards from the new index. -/
def add [Inhabited α] (h : Heap α) (value : α) : Heap α :=
  (h.addRaw value).upHeap (h.count + 1)

/-- Model of the down-heap bubbling loop of `Iterator::next` for `Heap<T>`:
while the current index has a live child, swap with the highest-priority
child as long as that child outranks the current element.  The positivity
hypothesis records that the loop is only ever entered at the root. -/
def downHeap [Inhabited α] (h : Heap α) (cur : Nat) (hcur : 0 < cur) : Heap α :=
  if hc : h.children_present cur = true then
    if h.comparator (h.items.getD (h.smallest_child_idx cur) default)
        (h.items.getD cur default) = true then
      downHeap { h with items := listSwap h.items (h.smallest_child_idx cur) cur }
        (h.smallest_child_idx cur)
        (by unfold smallest_child_idx right_child_idx left_child_idx; split <;> omega)
    else h
  else h
termination_by h.count + 1 - cur
decreasing_by
  unfold children_present left_child_idx at hc
  simp only [decide_eq_true_eq] at hc
  unfold smallest_child_idx right_child_idx left_child_idx
  split <;> omega

/-- Model of the first two statements of the non-empty branch of `next`:
swap the root with the last live element, then decrement `count`. -/
def popSwap [Inhabited α] (h : Heap α) : Heap α :=
  { h with items := listSwap h.items 1 h.count, count := h.count - 1 }

/-- State of the heap after the down-heap bubbling phase of `next`. -/
def popDown [Inhabited α] (h : Heap α) : Heap α :=
  h.popSwap.downHeap 1 Nat.one_pos

/-- Model of `Iterator::next` for `Heap<T>`: returns the extracted value (or
`none` when empty) together with the heap after the call.  The returned
value is `mem::replace(&mut self.items[self.count + 1], T::default())`. -/
def next [Inhabited α] (h : Heap α) : Option α × Heap α :=
  if h.is_empty then (none, h)
  else
    (some (h.popDown.items.getD (h.popDown.count + 1) default),
      { h.popDown with items := h.popDown.items.set (h.popDown.count + 1) default })

/-- Model of `Heap::new_min`. -/
def new_min (α : Type) [Inhabited α] [LinearOrder α] : Heap α :=
  Heap.new (fun a b => decide (a < b))

/-- Model of `Heap::new_max`. -/
def new_max (α : Type) [Inhabited α] [LinearOrder α] : Heap α :=
  Heap.new (fun a b => decide (a > b))

end Heap

/-- Model of `MinHeap::new`. -/
def MinHeap.new (α : Type) [Inhabited α] [LinearOrder α] : Heap α :=
  Heap.new (fun a b => decide (a < b))

/-- Model of `MaxHeap::new`. -/
def MaxHeap.new (α : Type) [Inhabited α] [LinearOrder α] : Heap α :=
  Heap.new (fun a b => decide (a > b))

/-- Operations of the public mutating API, used to describe call sequences. -/
inductive HeapOp (α : Type) where
  | add (value : α)
  | next

/-- Run a sequence of operations; also count the `next` calls that returned
`some`. -/
def runS {α : Type} [Inhabited α] (h : Heap α) : List (HeapOp α) → Heap α × Nat
  | [] => (h, 0)
  | HeapOp.add v :: ops => runS (h.add v) ops
  | HeapOp.next :: ops =>
    let r := h.next
    let t := runS r.2 ops
    (t.1, (if r.1.isSome then 1 else 0) + t.2)

/-- The heap resulting from a sequence of operations. -/
def runHeap {α : Type} [Inhabited α] (h : Heap α) (ops : List (HeapOp α)) : Heap α :=
  (runS h ops).1

/-- Number of `add` operations in a sequence. -/
def numAdds {α : Type} : List (HeapOp α) → Nat
  | [] => 0
  | HeapOp.add _ :: ops => numAdds ops + 1
  | HeapOp.next :: ops => numAdds ops

/-- Build a heap by inserting the values of a list in order. -/
def buildHeap {α : Type} [Inhabited α] (h : Heap α) (vs : List α) : Heap α :=
  vs.foldl Heap.add h

/-- Fuel-indexed repeated extraction; `Heap.drain` instantiates the fuel
with `h.count`, which is enough to reach the `none` answer. -/
def Heap.drainAux {α : Type} [Inhabited α] : Nat → Heap α → List α
  | 0, _ => []
  | fuel + 1, h =>
    match h.next with
    | (none, _) => []
    | (some v, h2) => v :: Heap.drainAux fuel h2

/-- Repeatedly call `next` until it returns `none`, collecting the extracted
values in order (the theorems `drain_eq_nil` and `drain_eq_cons` below show
that this is the sequence of values produced by the extraction loop). -/
def Heap.drain {α : Type} [Inhabited α] (h : Heap α) : List α :=
  Heap.drainAux h.count h

/-- Vector indices read by one evaluation of the Rust guard
`right_idx <= self.count && comparator(&self.items[right_idx], &self.items[left_idx])`
inside `smallest_child_idx`. -/
def Heap.smallestChildAcc {α : Type} (h : Heap α) (idx : Nat) : List Nat :=
  if h.right_child_idx idx ≤ h.count then [h.right_child_idx idx, h.left_child_idx idx]
  else []

/-- Vector indices read or written by the up-heap loop of `Heap::add`:
each iteration evaluates the guard (reading `cur` and its parent) and, if
the guard holds, swaps the same two slots and continues. -/
def Heap.upHeapAcc {α : Type} [Inhabited α] (h : Heap α) (cur : Nat) : List Nat :=
  if 1 < cur then
    if h.comparator (h.items.getD cur default) (h.items.getD (h.parent_idx cur) default) = true
    then
      cur :: h.parent_idx cur ::
        Heap.upHeapAcc { h with items := listSwap h.items cur (h.parent_idx cur) }
          (h.parent_idx cur)
    else [cur, h.parent_idx cur]
  else []
termination_by cur
decreasing_by
  simp only [Heap.parent_idx]
  omega

/-- Vector indices read or written by `Heap::add`: the insertion writes slot
`count` (push is not an indexing operation), then the up-heap loop runs. -/
def Heap.addAcc {α : Type} [Inhabited α] (h : Heap α) (value : α) : List Nat :=
  (if h.items.length ≤ h.count + 1 then [] else [h.count + 1]) ++
    Heap.upHeapAcc (h.addRaw value) (h.count + 1)

/-- Vector indices read or written by the down-heap loop of `next`: each
iteration reads the child slots inside `smallest_child_idx`, reads the
chosen child and the current slot for the guard, and on success swaps those
two slots and continues. -/
def Heap.downHeapAcc {α : Type} [Inhabited α] (h : Heap α) (cur : Nat) (hcur : 0 < cur) :
    List Nat :=
  if hc : h.children_present cur = true then
    h.smallestChildAcc cur ++ [h.smallest_child_idx cur, cur] ++
      (if h.comparator (h.items.getD (h.smallest_child_idx cur) default)
          (h.items.getD cur default) = true then
        Heap.downHeapAcc { h with items := listSwap h.items (h.smallest_child_idx cur) cur }
          (h.smallest_child_idx cur)
          (by unfold Heap.smallest_child_idx Heap.right_child_idx Heap.left_child_idx
              split <;> omega)
      else [])
  else []
termination_by h.count + 1 - cur
decreasing_by
  unfold Heap.children_present Heap.left_child_idx at hc
  simp only [decide_eq_true_eq] at hc
  unfold Heap.smallest_child_idx Heap.right_child_idx Heap.left_child_idx
  split <;> omega

/-- Vector indices read or written by `Iterator::next`: nothing when the
heap is empty; otherwise the root/last swap, the down-heap loop, and the
final `mem::replace` at slot `count + 1`. -/
def Heap.nextAcc {α : Type} [Inhabited α] (h : Heap α) : List Nat :=
  if h.is_empty then []
  else
    1 :: h.count :: (Heap.downHeapAcc h.popSwap 1 Nat.one_pos ++ [h.popSwap.count + 1])

/-- Vector indices read or written by `Heap::len` (none: it reads `count`
only). -/
def Heap.lenAcc {α : Type} (h : Heap α) : List Nat := []

/-- Vector indices read or written by `Heap::is_empty` (none). -/
def Heap.isEmptyAcc {α : Type} (h : Heap α) : List Nat := []

/-- Fuel-indexed version of the up-heap loop: `none` means the loop did not
reach its exit condition within `fuel` iterations. -/
def Heap.upHeapF {α : Type} [Inhabited α] : Nat → Heap α → Nat → Option (Heap α)
  | 0, h, cur =>
    if 1 < cur ∧
        h.comparator (h.items.getD cur default) (h.items.getD (h.parent_idx cur) default) = true
    then none
    else some h
  | fuel + 1, h, cur =>
    if 1 < cur ∧
        h.comparator (h.items.getD cur default) (h.items.getD (h.parent_idx cur) default) = true
    then
      Heap.upHeapF fuel { h with items := listSwap h.items cur (h.parent_idx cur) }
        (h.parent_idx cur)
    else some h

/-- Fuel-indexed version of the down-heap loop: `none` means the loop did
not reach its exit condition within `fuel` iterations. -/
def Heap.downHeapF {α : Type} [Inhabited α] : Nat → Heap α → Nat → Option (Heap α)
  | 0, h, cur =>
    if h.children_present cur = true ∧
        h.comparator (h.items.getD (h.smallest_child_idx cur) default)
          (h.items.getD cur default) = true
    then none
    else some h
  | fuel + 1, h, cur =>
    if h.children_present cur = true then
      if h.comparator (h.items.getD (h.smallest_child_idx cur) default)
          (h.items.getD cur default) = true then
        Heap.downHeapF fuel { h with items := listSwap h.items (h.smallest_child_idx cur) cur }
          (h.smallest_child_idx cur)
      else some h
    else some h

/-- Structural well-formedness of a heap state: the backing vector has a
slot for every live index `1..count` (and the sentinel), and slot 0 still
holds the default sentinel. -/
def Heap.Wf {α : Type} [Inhabited α] (h : Heap α) : Prop :=
  h.count + 1 ≤ h.items.length ∧ h.items[0]? = some default

instance {α : Type} [Inhabited α] [DecidableEq α] (h : Heap α) : Decidable h.Wf := by
  unfold Heap.Wf
  infer_instance

/-- The heap-property invariant: no live child outranks its parent. -/
def Heap.HeapProp {α : Type} [Inhabited α] (h : Heap α) : Prop :=
  ∀ i, i ≤ h.count → 1 < i →
    h.comparator (h.items.getD i default) (h.items.getD (h.parent_idx i) default) = false

instance {α : Type} [Inhabited α] (h : Heap α) : Decidable h.HeapProp := by
  unfold Heap.HeapProp
  infer_instance

/-- Asymmetry of a comparison predicate: `a` outranking `b` forbids `b`
outranking `a` (in particular nothing outranks itself). -/
def Asymm {α : Type} (cmp : α → α → Bool) : Prop :=
  ∀ a b, cmp a b = true → cmp b a = false

/-- Negative transitivity of a comparison predicate; together with
asymmetry this says `cmp` is a strict weak order. -/
def NegTrans {α : Type} (cmp : α → α → Bool) : Prop :=
  ∀ a b c, cmp a b = false → cmp b c = false → cmp a c = false

/-- The live region of the backing vector: the elements at indices
`1..count`. -/
def Heap.liveList {α : Type} (h : Heap α) : List α :=
  (h.items.drop 1).take h.count

/-- The multiset of live elements of a heap. -/
def Heap.liveM {α : Type} (h : Heap α) : Multiset α :=
  ↑h.liveList

/-- The root element (logical index 1). -/
def Heap.root {α : Type} [Inhabited α] (h : Heap α) : α :=
  h.items.getD 1 default

theorem length_listSwap {α : Type} [Inhabited α] (l : List α) (i j : Nat) :
    (listSwap l i j).length = l.length := by
  simp [listSwap]

theorem getElem?_listSwap_of_ne {α : Type} [Inhabited α] (l : List α) (i j k : Nat)
    (hki : k ≠ i) (hkj : k ≠ j) :
    (listSwap l i j)[k]? = l[k]? := by
  simp [listSwap, List.getElem?_set_ne (Ne.symm hkj), List.getElem?_set_ne (Ne.symm hki)]

theorem getD_listSwap_of_ne {α : Type} [Inhabited α] (l : List α) (i j k : Nat)
    (hki : k ≠ i) (hkj : k ≠ j) :
    (listSwap l i j).getD k default = l.getD k default := by
  simp [getElem?_listSwap_of_ne l i j k hki hkj]

theorem getD_listSwap_left {α : Type} [Inhabited α] (l : List α) (i j : Nat)
    (hi : i < l.length) :
    (listSwap l i j).getD i default = l.getD j default := by
  by_cases hij : i = j
  · subst hij
    simp [listSwap, List.getElem?_set_self (by simpa using hi)]
  · simp [listSwap, List.getElem?_set_ne (Ne.symm hij), List.getElem?_set_self hi]

theorem getD_listSwap_right {α : Type} [Inhabited α] (l : List α) (i j : Nat)
    (hj : j < l.length) :
    (listSwap l i j).getD j default = l.getD i default := by
  have hj2 : j < (l.set i (l[j]?.getD default)).length := by simpa using hj
  simp only [listSwap, List.getD_eq_getElem?_getD]
  rw [List.getElem?_set_self hj2]
  simp

theorem multiset_set {α : Type} (l : List α) (i : Nat) (a : α) (hi : i < l.length) :
    (↑(l.set i a) : Multiset α) + {l[i]} = ↑l + {a} := by
  induction l generalizing i with
  | nil => simp at hi
  | cons b t ih =>
    cases i with
    | zero =>
      simp only [List.set_cons_zero, List.getElem_cons_zero, ← Multiset.cons_coe]
      rw [← Multiset.singleton_add a, ← Multiset.singleton_add b]
      abel
    | succ n =>
      have hn : n < t.length := by simpa using hi
      simp only [List.set_cons_succ, List.getElem_cons_succ, ← Multiset.cons_coe]
      rw [Multiset.cons_add, Multiset.cons_add, ih n hn]

theorem multiset_listSwap {α : Type} [Inhabited α] (l : List α) (i j : Nat)
    (hi : i < l.length) (hj : j < l.length) :
    (↑(listSwap l i j) : Multiset α) = ↑l := by
  have hb : l.getD j default = l[j] := by
    simp [List.getElem?_eq_getElem hj]
  have ha : l.getD i default = l[i] := by
    simp [List.getElem?_eq_getElem hi]
  have hj2 : j < (l.set i (l.getD j default)).length := by simpa using hj
  have hc : (l.set i (l.getD j default))[j] = l.getD j default := by
    by_cases hij : i = j
    · subst hij
      simp
    · rw [List.getElem_set_ne hij, ← hb]
  have e1 := multiset_set (l.set i (l.getD j default)) j (l.getD i default) hj2
  have e2 := multiset_set l i (l.getD j default) hi
  have key : (↑(listSwap l i j) : Multiset α) + {l.getD j default} = ↑l + {l.getD j default} := by
    calc (↑(listSwap l i j) : Multiset α) + {l.getD j default}
        = ↑((l.set i (l.getD j default)).set j (l.getD i default))
            + {(l.set i (l.getD j default))[j]} := by rw [hc]; rfl
      _ = ↑(l.set i (l.getD j default)) + {l.getD i default} := e1
      _ = ↑(l.set i (l.getD j default)) + {l[i]} := by rw [ha]
      _ = ↑l + {l.getD j default} := e2
  exact add_right_cancel key

namespace Heap

variable {α : Type}

theorem smallest_child_idx_pos [Inhabited α] (h : Heap α) (idx : Nat) (hidx : 0 < idx) :
    idx < h.smallest_child_idx idx := by
  unfold smallest_child_idx right_child_idx left_child_idx
  split <;> omega

theorem smallest_child_idx_le_count [Inhabited α] (h : Heap α) (idx : Nat)
    (hc : h.children_present idx = true) : h.smallest_child_idx idx ≤ h.count := by
  unfold children_present left_child_idx at hc
  simp only [decide_eq_true_eq] at hc
  unfold smallest_child_idx right_child_idx left_child_idx
  split <;> omega

theorem le_count_of_children_present (h : Heap α) (idx : Nat) (hidx : 0 < idx)
    (hc : h.children_present idx = true) : idx ≤ h.count := by
  unfold children_present left_child_idx at hc
  simp only [decide_eq_true_eq] at hc
  omega

theorem upHeap_shape [Inhabited α] (h : Heap α) (cur : Nat) :
    (h.upHeap cur).count = h.count ∧ (h.upHeap cur).comparator = h.comparator ∧
      (h.upHeap cur).items.length = h.items.length := by
  induction h, cur using Heap.upHeap.induct with
  | case1 h cur hguard ih =>
    rw [Heap.upHeap, if_pos hguard]
    simpa [length_listSwap] using ih
  | case2 h cur hguard =>
    rw [Heap.upHeap, if_neg hguard]
    exact ⟨rfl, rfl, rfl⟩

theorem upHeap_getElem?_high [Inhabited α] (h : Heap α) (cur : Nat) (k : Nat)
    (hk : k = 0 ∨ cur < k) : (h.upHeap cur).items[k]? = h.items[k]? := by
  induction h, cur using Heap.upHeap.induct with
  | case1 h cur hguard ih =>
    rw [Heap.upHeap, if_pos hguard]
    have h1 : 1 < cur := hguard.1
    have hpar : h.parent_idx cur < cur := by
      unfold parent_idx
      omega
    have hk2 : k = 0 ∨ h.parent_idx cur < k := by
      rcases hk with hk | hk
      · exact Or.inl hk
      · exact Or.inr (Nat.lt_trans hpar hk)
    have hki : k ≠ cur := by
      rcases hk with hk | hk <;> omega
    have hkj : k ≠ h.parent_idx cur := by
      unfold parent_idx
      rcases hk with hk | hk <;> omega
    rw [ih hk2]
    exact getElem?_listSwap_of_ne h.items cur (h.parent_idx cur) k hki hkj
  | case2 h cur hguard =>
    rw [Heap.upHeap, if_neg hguard]

theorem upHeap_multiset [Inhabited α] (h : Heap α) (cur : Nat)
    (hcur : cur < h.items.length) :
    ((h.upHeap cur).items : Multiset α) = ↑h.items := by
  induction h, cur using Heap.upHeap.induct with
  | case1 h cur hguard ih =>
    rw [Heap.upHeap, if_pos hguard]
    have h1 : 1 < cur := hguard.1
    have hpar : h.parent_idx cur < cur := by
      unfold parent_idx
      omega
    have hlen : (listSwap h.items cur (h.parent_idx cur)).length = h.items.length :=
      length_listSwap _ _ _
    rw [ih (by simpa [hlen] using Nat.lt_trans hpar hcur)]
    exact multiset_listSwap h.items cur (h.parent_idx cur) hcur (Nat.lt_trans hpar hcur)
  | case2 h cur hguard =>
    rw [Heap.upHeap, if_neg hguard]

theorem downHeap_shape [Inhabited α] (h : Heap α) (cur : Nat) (hcur : 0 < cur) :
    (h.downHeap cur hcur).count = h.count ∧
      (h.downHeap cur hcur).comparator = h.comparator ∧
      (h.downHeap cur hcur).items.length = h.items.length := by
  induction h, cur, hcur using Heap.downHeap.induct with
  | case1 h cur hcur hc hguard ih =>
    rw [Heap.downHeap, dif_pos hc, if_pos hguard]
    simpa [length_listSwap] using ih
  | case2 h cur hcur hc hguard =>
    rw [Heap.downHeap, dif_pos hc, if_neg hguard]
    exact ⟨rfl, rfl, rfl⟩
  | case3 h cur hcur hc =>
    rw [Heap.downHeap, dif_neg hc]
    exact ⟨rfl, rfl, rfl⟩

theorem downHeap_getElem?_high [Inhabited α] (h : Heap α) (cur : Nat) (hcur : 0 < cur)
    (k : Nat) (hk : k = 0 ∨ h.count < k) :
    (h.downHeap cur hcur).items[k]? = h.items[k]? := by
  induction h, cur, hcur using Heap.downHeap.induct with
  | case1 h cur hcur hc hguard ih =>
    rw [Heap.downHeap, dif_pos hc, if_pos hguard]
    have hs_le : h.smallest_child_idx cur ≤ h.count := h.smallest_child_idx_le_count cur hc
    have hs_pos : 0 < h.smallest_child_idx cur :=
      Nat.lt_trans hcur (h.smallest_child_idx_pos cur hcur)
    have hcur_le : cur ≤ h.count := h.le_count_of_children_present cur hcur hc
    have hki : k ≠ h.smallest_child_idx cur := by
      rcases hk with hk | hk <;> omega
    have hkj : k ≠ cur := by
      rcases hk with hk | hk <;> omega
    rw [ih hk]
    exact getElem?_listSwap_of_ne h.items (h.smallest_child_idx cur) cur k hki hkj
  | case2 h cur hcur hc hguard =>
    rw [Heap.downHeap, dif_pos hc, if_neg hguard]
  | case3 h cur hcur hc =>
    rw [Heap.downHeap, dif_neg hc]

theorem downHeap_multiset [Inhabited α] (h : Heap α) (cur : Nat) (hcur : 0 < cur)
    (hlen : h.count < h.items.length) :
    ((h.downHeap cur hcur).items : Multiset α) = ↑h.items := by
  induction h, cur, hcur using Heap.downHeap.induct with
  | case1 h cur hcur hc hguard ih =>
    rw [Heap.downHeap, dif_pos hc, if_pos hguard]
    have hs_le : h.smallest_child_idx cur ≤ h.count := h.smallest_child_idx_le_count cur hc
    have hcur_le : cur ≤ h.count := h.le_count_of_children_present cur hcur hc
    have hlen2 : (listSwap h.items (h.smallest_child_idx cur) cur).length = h.items.length :=
      length_listSwap _ _ _
    rw [ih (by simpa [hlen2] using hlen)]
    exact multiset_listSwap h.items (h.smallest_child_idx cur) cur
      (by omega) (by omega)
  | case2 h cur hcur hc hguard =>
    rw [Heap.downHeap, dif_pos hc, if_neg hguard]
  | case3 h cur hcur hc =>
    rw [Heap.downHeap, dif_neg hc]

end Heap

theorem list_decomp {α : Type} (l : List α) (c : Nat) :
    l = l.take 1 ++ ((l.drop 1).take c ++ l.drop (1 + c)) := by
  conv_lhs => rw [← List.take_append_drop 1 l]
  congr 1
  conv_lhs => rw [← List.take_append_drop c (l.drop 1)]
  rw [List.drop_drop]

theorem middle_cancel {α : Type} (l l' : List α) (c : Nat)
    (h0 : l'[0]? = l[0]?) (hhigh : ∀ k, c < k → l'[k]? = l[k]?)
    (hm : (↑l' : Multiset α) = ↑l) :
    (↑((l'.drop 1).take c) : Multiset α) = ↑((l.drop 1).take c) := by
  have htake : l'.take 1 = l.take 1 := by
    apply List.ext_getElem?
    intro n
    rw [List.getElem?_take, List.getElem?_take]
    rcases Nat.lt_or_ge n 1 with hn | hn
    · interval_cases n
      simp [h0]
    · simp [Nat.not_lt.mpr hn]
  have hdrop : l'.drop (1 + c) = l.drop (1 + c) := by
    apply List.ext_getElem?
    intro n
    rw [List.getElem?_drop, List.getElem?_drop]
    exact hhigh (1 + c + n) (by omega)
  have hl : (↑l : Multiset α)
      = ↑(l.take 1) + (↑((l.drop 1).take c) + ↑(l.drop (1 + c))) := by
    conv_lhs => rw [list_decomp l c]
    rw [← Multiset.coe_add, ← Multiset.coe_add]
  have hl' : (↑l' : Multiset α)
      = ↑(l'.take 1) + (↑((l'.drop 1).take c) + ↑(l'.drop (1 + c))) := by
    conv_lhs => rw [list_decomp l' c]
    rw [← Multiset.coe_add, ← Multiset.coe_add]
  rw [hl, hl', htake, hdrop] at hm
  have hmid := add_left_cancel hm
  exact add_right_cancel hmid

theorem getElem?_eq_some_getD {α : Type} [Inhabited α] (l : List α) (k : Nat)
    (hk : k < l.length) : l[k]? = some (l.getD k default) := by
  simp [List.getElem?_eq_getElem hk]

namespace Heap

variable {α : Type}

theorem liveList_getElem? (h : Heap α) (k : Nat) :
    h.liveList[k]? = if k < h.count then h.items[k + 1]? else none := by
  unfold liveList
  rw [List.getElem?_take]
  by_cases hk : k < h.count
  · rw [if_pos hk, if_pos hk, List.getElem?_drop, Nat.add_comm]
  · rw [if_neg hk, if_neg hk]

theorem liveList_length (h : Heap α) (hlen : h.count + 1 ≤ h.items.length) :
    h.liveList.length = h.count := by
  unfold liveList
  rw [List.length_take, List.length_drop]
  omega

theorem liveM_eq_of_parts [Inhabited α] (h h' : Heap α) (hcount : h'.count = h.count)
    (h0 : h'.items[0]? = h.items[0]?)
    (hhigh : ∀ k, h.count < k → h'.items[k]? = h.items[k]?)
    (hm : (↑h'.items : Multiset α) = ↑h.items) : h'.liveM = h.liveM := by
  unfold liveM liveList
  rw [hcount]
  exact middle_cancel h.items h'.items h.count h0 hhigh hm

theorem upHeap_liveM [Inhabited α] (h : Heap α) (cur : Nat) (hcur : cur ≤ h.count)
    (hlen : h.count < h.items.length) : (h.upHeap cur).liveM = h.liveM := by
  apply liveM_eq_of_parts
  · exact (h.upHeap_shape cur).1
  · exact h.upHeap_getElem?_high cur 0 (Or.inl rfl)
  · intro k hk
    exact h.upHeap_getElem?_high cur k (Or.inr (by omega))
  · exact h.upHeap_multiset cur (by omega)

theorem downHeap_liveM [Inhabited α] (h : Heap α) (cur : Nat) (hcur : 0 < cur)
    (hlen : h.count < h.items.length) : (h.downHeap cur hcur).liveM = h.liveM := by
  apply liveM_eq_of_parts
  · exact (h.downHeap_shape cur hcur).1
  · exact h.downHeap_getElem?_high cur hcur 0 (Or.inl rfl)
  · intro k hk
    exact h.downHeap_getElem?_high cur hcur k (Or.inr hk)
  · exact h.downHeap_multiset cur hcur hlen

theorem addRaw_count [Inhabited α] (h : Heap α) (v : α) :
    (h.addRaw v).count = h.count + 1 := rfl

theorem addRaw_comparator [Inhabited α] (h : Heap α) (v : α) :
    (h.addRaw v).comparator = h.comparator := rfl

theorem addRaw_length [Inhabited α] (h : Heap α) (v : α)
    (hlen : h.count + 1 ≤ h.items.length) :
    h.count + 2 ≤ (h.addRaw v).items.length := by
  unfold addRaw
  dsimp only
  split
  · rw [List.length_append]
    simp only [List.length_cons, List.length_nil]
    omega
  · rw [List.length_set]
    omega

theorem addRaw_getElem?_low [Inhabited α] (h : Heap α) (v : α) (k : Nat)
    (hk : k ≤ h.count) (hlen : h.count + 1 ≤ h.items.length) :
    (h.addRaw v).items[k]? = h.items[k]? := by
  unfold addRaw
  dsimp only
  split
  · exact List.getElem?_append_left (by omega)
  · exact List.getElem?_set_ne (by omega)

theorem addRaw_getElem?_new [Inhabited α] (h : Heap α) (v : α)
    (hlen : h.count + 1 ≤ h.items.length) :
    (h.addRaw v).items[h.count + 1]? = some v := by
  unfold addRaw
  dsimp only
  split
  · next hbranch =>
    have hlen2 : h.items.length = h.count + 1 := by omega
    rw [← hlen2]
    exact List.getElem?_concat_length _ _
  · exact List.getElem?_set_self (by omega)

theorem addRaw_getD_new [Inhabited α] (h : Heap α) (v : α)
    (hlen : h.count + 1 ≤ h.items.length) :
    (h.addRaw v).items.getD (h.count + 1) default = v := by
  have := h.addRaw_getElem?_new v hlen
  simp [this]

theorem addRaw_liveList [Inhabited α] (h : Heap α) (v : α) (hwf : h.Wf) :
    (h.addRaw v).liveList = h.liveList ++ [v] := by
  have hlen : h.count + 1 ≤ h.items.length := hwf.1
  have hll : h.liveList.length = h.count := h.liveList_length hlen
  apply List.ext_getElem?
  intro n
  rw [liveList_getElem?, addRaw_count]
  rcases Nat.lt_trichotomy n h.count with hn | hn | hn
  · rw [if_pos (by omega), h.addRaw_getElem?_low v (n + 1) (by omega) hlen,
      List.getElem?_append_left (by omega), liveList_getElem?, if_pos hn]
  · subst hn
    rw [if_pos (by omega), h.addRaw_getElem?_new v hlen, ← hll]
    exact (List.getElem?_concat_length _ _).symm
  · rw [if_neg (by omega)]
    have : (h.liveList ++ [v]).length ≤ n := by
      rw [List.length_append]
      simp only [List.length_cons, List.length_nil]
      omega
    exact (List.getElem?_eq_none this).symm

theorem addRaw_liveM [Inhabited α] (h : Heap α) (v : α) (hwf : h.Wf) :
    (h.addRaw v).liveM = v ::ₘ h.liveM := by
  unfold liveM
  rw [h.addRaw_liveList v hwf, ← Multiset.coe_add, Multiset.coe_singleton, add_comm,
    Multiset.singleton_add]

theorem add_count [Inhabited α] (h : Heap α) (v : α) :
    (h.add v).count = h.count + 1 := by
  unfold add
  rw [((h.addRaw v).upHeap_shape (h.count + 1)).1, addRaw_count]

theorem add_comparator [Inhabited α] (h : Heap α) (v : α) :
    (h.add v).comparator = h.comparator := by
  unfold add
  rw [((h.addRaw v).upHeap_shape (h.count + 1)).2.1, addRaw_comparator]

theorem add_wf [Inhabited α] (h : Heap α) (v : α) (hwf : h.Wf) : (h.add v).Wf := by
  constructor
  · rw [add_count]
    unfold add
    rw [((h.addRaw v).upHeap_shape (h.count + 1)).2.2]
    exact h.addRaw_length v hwf.1
  · unfold add
    rw [(h.addRaw v).upHeap_getElem?_high (h.count + 1) 0 (Or.inl rfl),
      h.addRaw_getElem?_low v 0 (Nat.zero_le _) hwf.1]
    exact hwf.2

theorem add_liveM [Inhabited α] (h : Heap α) (v : α) (hwf : h.Wf) :
    (h.add v).liveM = v ::ₘ h.liveM := by
  unfold add
  rw [(h.addRaw v).upHeap_liveM (h.count + 1) (by rw [addRaw_count])
      (by have := h.addRaw_length v hwf.1; rw [addRaw_count]; omega)]
  exact h.addRaw_liveM v hwf

end Heap

namespace Heap

variable {α : Type}

theorem is_empty_iff (h : Heap α) : h.is_empty = true ↔ h.count = 0 := by
  simp [is_empty, len]

theorem next_of_empty [Inhabited α] (h : Heap α) (h0 : h.count = 0) :
    h.next = (none, h) := by
  unfold next
  rw [if_pos (h.is_empty_iff.mpr h0)]

theorem popSwap_count [Inhabited α] (h : Heap α) : h.popSwap.count = h.count - 1 := rfl

theorem popSwap_comparator [Inhabited α] (h : Heap α) :
    h.popSwap.comparator = h.comparator := rfl

theorem popSwap_length [Inhabited α] (h : Heap α) :
    h.popSwap.items.length = h.items.length := length_listSwap _ _ _

theorem popSwap_getElem?_zero [Inhabited α] (h : Heap α) (hne : 0 < h.count) :
    h.popSwap.items[0]? = h.items[0]? :=
  getElem?_listSwap_of_ne _ _ _ _ (by omega) (by omega)

theorem popSwap_getD_count [Inhabited α] (h : Heap α) (hlen : h.count < h.items.length) :
    h.popSwap.items.getD h.count default = h.items.getD 1 default :=
  getD_listSwap_right _ _ _ hlen

theorem popSwap_wf [Inhabited α] (h : Heap α) (hwf : h.Wf) (hne : 0 < h.count) :
    h.popSwap.Wf := by
  constructor
  · rw [popSwap_count, popSwap_length]
    have := hwf.1
    omega
  · rw [h.popSwap_getElem?_zero hne]
    exact hwf.2

theorem popSwap_liveM [Inhabited α] (h : Heap α) (hwf : h.Wf) (hne : 0 < h.count) :
    h.root ::ₘ h.popSwap.liveM = h.liveM := by
  have hlen : h.count + 1 ≤ h.items.length := hwf.1
  have hmidEq :
      (↑(((listSwap h.items 1 h.count).drop 1).take h.count) : Multiset α)
        = ↑((h.items.drop 1).take h.count) := by
    apply middle_cancel
    · exact getElem?_listSwap_of_ne _ _ _ _ (by omega) (by omega)
    · intro k hk
      exact getElem?_listSwap_of_ne _ _ _ _ (by omega) (by omega)
    · exact multiset_listSwap _ _ _ (by omega) (by omega)
  obtain ⟨c, hc⟩ : ∃ c, h.count = c + 1 := ⟨h.count - 1, by omega⟩
  have htake :
      ((listSwap h.items 1 h.count).drop 1).take h.count
        = ((listSwap h.items 1 h.count).drop 1).take (h.count - 1)
            ++ [h.items.getD 1 default] := by
    rw [hc, Nat.add_sub_cancel, List.take_succ, List.getElem?_drop, Nat.add_comm 1 c,
      getElem?_eq_some_getD _ _ (by rw [length_listSwap]; omega),
      getD_listSwap_right _ _ _ (by omega)]
    rfl
  have hfinal : (↑(h.popSwap.liveList) : Multiset α) + {h.root} = ↑h.liveList := by
    unfold popSwap liveList root
    dsimp only
    rw [← hmidEq, htake, ← Multiset.coe_add, Multiset.coe_singleton]
  unfold liveM
  rw [← hfinal, add_comm, Multiset.singleton_add]

theorem popDown_count [Inhabited α] (h : Heap α) : h.popDown.count = h.count - 1 := by
  unfold popDown
  rw [(h.popSwap.downHeap_shape 1 Nat.one_pos).1, popSwap_count]

theorem popDown_comparator [Inhabited α] (h : Heap α) :
    h.popDown.comparator = h.comparator := by
  unfold popDown
  rw [(h.popSwap.downHeap_shape 1 Nat.one_pos).2.1, popSwap_comparator]

theorem popDown_length [Inhabited α] (h : Heap α) :
    h.popDown.items.length = h.items.length := by
  unfold popDown
  rw [(h.popSwap.downHeap_shape 1 Nat.one_pos).2.2, popSwap_length]

theorem popDown_getElem?_high [Inhabited α] (h : Heap α) (k : Nat)
    (hk : k = 0 ∨ h.count - 1 < k) : h.popDown.items[k]? = h.popSwap.items[k]? := by
  unfold popDown
  exact h.popSwap.downHeap_getElem?_high 1 Nat.one_pos k (by rw [popSwap_count]; exact hk)

theorem popDown_liveM [Inhabited α] (h : Heap α) (hwf : h.Wf) (hne : 0 < h.count) :
    h.popDown.liveM = h.popSwap.liveM := by
  unfold popDown
  exact h.popSwap.downHeap_liveM 1 Nat.one_pos
    (by rw [popSwap_count, popSwap_length]; have := hwf.1; omega)

theorem popDown_wf [Inhabited α] (h : Heap α) (hwf : h.Wf) (hne : 0 < h.count) :
    h.popDown.Wf := by
  have hps := h.popSwap_wf hwf hne
  constructor
  · rw [popDown_count, popDown_length]
    have := hwf.1
    omega
  · rw [h.popDown_getElem?_high 0 (Or.inl rfl), h.popSwap_getElem?_zero hne]
    exact hwf.2

theorem popDown_getD_count [Inhabited α] (h : Heap α) (hwf : h.Wf) (hne : 0 < h.count) :
    h.popDown.items.getD h.count default = h.root := by
  have hlen : h.count < h.items.length := by have := hwf.1; omega
  have h1 : h.popDown.items[h.count]? = h.popSwap.items[h.count]? :=
    h.popDown_getElem?_high h.count (Or.inr (by omega))
  have h2 : h.popSwap.items[h.count]? = some (h.popSwap.items.getD h.count default) :=
    getElem?_eq_some_getD _ _ (by rw [popSwap_length]; omega)
  have h3 := h.popSwap_getD_count hlen
  have h4 : h.popDown.items[h.count]? = some (h.items.getD 1 default) := by
    rw [h1, h2, h3]
  unfold root
  simp [h4]

theorem next_spec [Inhabited α] (h : Heap α) (hwf : h.Wf) (hne : 0 < h.count) :
    (h.next).1 = some h.root ∧
    (h.next).2.count = h.count - 1 ∧
    (h.next).2.comparator = h.comparator ∧
    (h.next).2.items.length = h.items.length ∧
    (h.next).2.items[h.count]? = some default ∧
    (h.next).2.Wf ∧
    h.root ::ₘ (h.next).2.liveM = h.liveM := by
  have hlen : h.count + 1 ≤ h.items.length := hwf.1
  have hEmp : h.is_empty ≠ true := by
    intro hcontra
    rw [h.is_empty_iff] at hcontra
    omega
  have hcnt1 : h.popDown.count + 1 = h.count := by rw [popDown_count]; omega
  have hnext : h.next =
      (some (h.popDown.items.getD (h.popDown.count + 1) default),
        { h.popDown with items := h.popDown.items.set (h.popDown.count + 1) default }) := by
    unfold next
    rw [if_neg hEmp]
  have hdlen : h.popDown.items.length = h.items.length := h.popDown_length
  have hcountlt : h.count < h.popDown.items.length := by rw [hdlen]; omega
  have hval : (h.next).1 = some h.root := by
    rw [hnext]
    dsimp only
    rw [hcnt1, h.popDown_getD_count hwf hne]
  have hliveListEq : ({ h.popDown with
      items := h.popDown.items.set (h.popDown.count + 1) default } : Heap α).liveList
        = h.popDown.liveList := by
    apply List.ext_getElem?
    intro n
    rw [liveList_getElem?, liveList_getElem?]
    dsimp only
    by_cases hn : n < h.popDown.count
    · rw [if_pos hn, if_pos hn]
      exact List.getElem?_set_ne (by omega)
    · rw [if_neg hn, if_neg hn]
  refine ⟨hval, ?_, ?_, ?_, ?_, ?_, ?_⟩
  · rw [hnext]
    exact h.popDown_count
  · rw [hnext]
    exact h.popDown_comparator
  · rw [hnext]
    dsimp only
    rw [List.length_set]
    exact hdlen
  · rw [hnext]
    dsimp only
    rw [hcnt1]
    exact List.getElem?_set_self hcountlt
  · constructor
    · rw [hnext]
      dsimp only
      rw [List.length_set, popDown_count, hdlen]
      omega
    · rw [hnext]
      dsimp only
      rw [List.getElem?_set_ne (by omega), h.popDown_getElem?_high 0 (Or.inl rfl),
        h.popSwap_getElem?_zero hne]
      exact hwf.2
  · rw [hnext]
    have : ({ h.popDown with
        items := h.popDown.items.set (h.popDown.count + 1) default } : Heap α).liveM
          = h.popDown.liveM := by
      unfold liveM
      rw [hliveListEq]
    dsimp only at this ⊢
    rw [this, h.popDown_liveM hwf hne]
    exact h.popSwap_liveM hwf hne

end Heap

namespace Heap

variable {α : Type}

theorem next_of_pos [Inhabited α] (h : Heap α) (hne : h.count ≠ 0) :
    h.next = (some (h.popDown.items.getD (h.popDown.count + 1) default),
      { h.popDown with items := h.popDown.items.set (h.popDown.count + 1) default }) := by
  unfold next
  rw [if_neg (by intro hcontra; rw [h.is_empty_iff] at hcontra; omega)]

theorem next_snd_count [Inhabited α] (h : Heap α) : (h.next).2.count = h.count - 1 := by
  by_cases h0 : h.count = 0
  · rw [h.next_of_empty h0, h0]
  · rw [h.next_of_pos h0]
    exact h.popDown_count

theorem next_snd_comparator [Inhabited α] (h : Heap α) :
    (h.next).2.comparator = h.comparator := by
  by_cases h0 : h.count = 0
  · rw [h.next_of_empty h0]
  · rw [h.next_of_pos h0]
    exact h.popDown_comparator

theorem next_fst_none_iff [Inhabited α] (h : Heap α) :
    (h.next).1 = none ↔ h.count = 0 := by
  by_cases h0 : h.count = 0
  · rw [h.next_of_empty h0]
    simp [h0]
  · rw [h.next_of_pos h0]
    simp [h0]

theorem next_wf [Inhabited α] (h : Heap α) (hwf : h.Wf) : (h.next).2.Wf := by
  by_cases h0 : h.count = 0
  · rw [h.next_of_empty h0]
    exact hwf
  · exact (h.next_spec hwf (by omega)).2.2.2.2.2.1

theorem new_wf [Inhabited α] (cmp : α → α → Bool) : (Heap.new cmp).Wf := by
  constructor
  · simp [new]
  · simp [new]

theorem new_comparator [Inhabited α] (cmp : α → α → Bool) :
    (Heap.new cmp).comparator = cmp := rfl

theorem new_liveM [Inhabited α] (cmp : α → α → Bool) :
    (Heap.new cmp).liveM = 0 := by
  simp [new, liveM, liveList]

end Heap

theorem runS_accounting {α : Type} [Inhabited α] (h : Heap α) (ops : List (HeapOp α)) :
    (runS h ops).1.count + (runS h ops).2 = h.count + numAdds ops := by
  induction ops generalizing h with
  | nil => simp [runS, numAdds]
  | cons op ops ih =>
    cases op with
    | add v =>
      show (runS (h.add v) ops).1.count + (runS (h.add v) ops).2 = _
      rw [ih (h.add v), h.add_count v]
      simp only [numAdds]
      omega
    | next =>
      simp only [runS, numAdds]
      by_cases h0 : h.count = 0
      · rw [h.next_of_empty h0]
        simp only [Option.isSome_none, Bool.false_eq_true, if_false]
        have := ih h
        omega
      · have hsome : (h.next).1.isSome = true := by
          rcases hv : (h.next).1 with _ | v
          · exact absurd (h.next_fst_none_iff.mp hv) h0
          · rfl
        rw [hsome]
        simp only [if_true]
        have hcnt := h.next_snd_count
        have := ih (h.next).2
        omega

theorem runS_wf {α : Type} [Inhabited α] (h : Heap α) (ops : List (HeapOp α))
    (hwf : h.Wf) : (runS h ops).1.Wf := by
  induction ops generalizing h with
  | nil => exact hwf
  | cons op ops ih =>
    cases op with
    | add v => exact ih (h.add v) (h.add_wf v hwf)
    | next => exact ih (h.next).2 (h.next_wf hwf)

theorem runS_comparator {α : Type} [Inhabited α] (h : Heap α) (ops : List (HeapOp α)) :
    (runS h ops).1.comparator = h.comparator := by
  induction ops generalizing h with
  | nil => rfl
  | cons op ops ih =>
    cases op with
    | add v => rw [show runS h (HeapOp.add v :: ops) = runS (h.add v) ops from rfl,
        ih (h.add v), h.add_comparator]
    | next =>
      have : (runS h (HeapOp.next :: ops)).1 = (runS (h.next).2 ops).1 := rfl
      rw [this, ih (h.next).2, h.next_snd_comparator]

theorem drainAux_congr {α : Type} [Inhabited α] (fuel1 fuel2 : Nat) (h : Heap α)
    (h1 : h.count ≤ fuel1) (h2 : h.count ≤ fuel2) :
    Heap.drainAux fuel1 h = Heap.drainAux fuel2 h := by
  induction fuel1 generalizing h fuel2 with
  | zero =>
    have h0 : h.count = 0 := by omega
    cases fuel2 with
    | zero => rfl
    | succ f2 =>
      show Heap.drainAux 0 h = Heap.drainAux (f2 + 1) h
      simp only [Heap.drainAux, h.next_of_empty h0]
  | succ f1 ih =>
    cases fuel2 with
    | zero =>
      have h0 : h.count = 0 := by omega
      simp only [Heap.drainAux, h.next_of_empty h0]
    | succ f2 =>
      rcases hn : h.next with ⟨v?, h2'⟩
      cases v? with
      | none => simp only [Heap.drainAux, hn]
      | some v =>
        have hpos : h.count ≠ 0 := by
          intro h0
          have := h.next_fst_none_iff.mpr h0
          rw [hn] at this
          simp at this
        have hcnt : h2'.count = h.count - 1 := by
          have := h.next_snd_count
          rw [hn] at this
          exact this
        simp only [Heap.drainAux, hn]
        rw [ih f2 h2' (by omega) (by omega)]

theorem drain_of_zero {α : Type} [Inhabited α] (h : Heap α) (h0 : h.count = 0) :
    h.drain = [] := by
  unfold Heap.drain
  rw [h0]
  rfl

theorem drain_eq_nil {α : Type} [Inhabited α] (h : Heap α) (hn : (h.next).1 = none) :
    h.drain = [] :=
  drain_of_zero h (h.next_fst_none_iff.mp hn)

theorem drain_eq_cons {α : Type} [Inhabited α] (h : Heap α) (v : α) (h2 : Heap α)
    (hn : h.next = (some v, h2)) : h.drain = v :: h2.drain := by
  have hpos : h.count ≠ 0 := by
    intro h0
    have := h.next_fst_none_iff.mpr h0
    rw [hn] at this
    simp at this
  have hcnt : h2.count = h.count - 1 := by
    have := h.next_snd_count
    rw [hn] at this
    exact this
  obtain ⟨c, hc⟩ : ∃ c, h.count = c + 1 := ⟨h.count - 1, by omega⟩
  unfold Heap.drain
  rw [hc]
  simp only [Heap.drainAux, hn]
  rw [drainAux_congr c h2.count h2 (by omega) (le_refl _)]

theorem cmp_trans {α : Type} (cmp : α → α → Bool) (hA : Asymm cmp) (hN : NegTrans cmp) :
    ∀ a b c, cmp a b = true → cmp b c = true → cmp a c = true := by
  intro a b c hab hbc
  cases hac : cmp a c with
  | true => rfl
  | false =>
    have h1 : cmp c b = false := hA b c hbc
    have h2 : cmp a b = false := hN a c b hac h1
    rw [hab] at h2
    exact absurd h2 (by simp)

theorem cmp_irrefl {α : Type} (cmp : α → α → Bool) (hA : Asymm cmp) :
    ∀ a, cmp a a = false := by
  intro a
  cases hx : cmp a a with
  | true => exact hx ▸ hA a a hx
  | false => rfl

namespace Heap

variable {α : Type}

theorem addRaw_getD_low [Inhabited α] (h : Heap α) (v : α) (k : Nat)
    (hk : k ≤ h.count) (hlen : h.count + 1 ≤ h.items.length) :
    (h.addRaw v).items.getD k default = h.items.getD k default := by
  simp [h.addRaw_getElem?_low v k hk hlen]

theorem upHeap_heapProp [Inhabited α] (h : Heap α) (cur : Nat) :
    Asymm h.comparator → NegTrans h.comparator →
    1 ≤ cur → cur ≤ h.count → h.count < h.items.length →
    (∀ i, 1 < i → i ≤ h.count → i ≠ cur →
      h.comparator (h.items.getD i default) (h.items.getD (i / 2) default) = false) →
    (1 < cur → ∀ c, (c = 2 * cur ∨ c = 2 * cur + 1) → c ≤ h.count →
      h.comparator (h.items.getD c default) (h.items.getD (cur / 2) default) = false) →
    (h.upHeap cur).HeapProp := by
  induction h, cur using Heap.upHeap.induct with
  | case1 h cur hguard ih =>
    intro hA hN hc1 hc2 hlen ha hb
    rw [Heap.upHeap, if_pos hguard]
    simp only [Heap.parent_idx] at hguard ih ⊢
    have h1cur : 1 < cur := hguard.1
    have hcmp : h.comparator (h.items.getD cur default) (h.items.getD (cur / 2) default)
        = true := hguard.2
    have hcurlen : cur < h.items.length := by omega
    have hplen : cur / 2 < h.items.length := by omega
    have vcur : (listSwap h.items cur (cur / 2)).getD cur default
        = h.items.getD (cur / 2) default := getD_listSwap_left _ _ _ hcurlen
    have vpar : (listSwap h.items cur (cur / 2)).getD (cur / 2) default
        = h.items.getD cur default := getD_listSwap_right _ _ _ hplen
    have voth : ∀ k, k ≠ cur → k ≠ cur / 2 →
        (listSwap h.items cur (cur / 2)).getD k default = h.items.getD k default :=
      fun k hk1 hk2 => getD_listSwap_of_ne _ _ _ _ hk1 hk2
    apply ih hA hN (by omega) (by omega) (by rw [length_listSwap]; omega)
    · intro i hi1 hi2 hip
      by_cases hicur : i = cur
      · subst hicur
        have hieq : i / 2 = i / 2 := rfl
        rw [vcur, vpar]
        exact hA _ _ hcmp
      · by_cases hpc : i / 2 = cur
        · have hdisj : i = 2 * cur ∨ i = 2 * cur + 1 := by omega
          rw [voth i hicur (by omega), hpc, vcur]
          exact hb h1cur i hdisj hi2
        · by_cases hpp : i / 2 = cur / 2
          · rw [voth i hicur hip, hpp, vpar]
            cases hx : h.comparator (h.items.getD i default) (h.items.getD cur default) with
            | false => rfl
            | true =>
              have htr := cmp_trans h.comparator hA hN _ _ _ hx hcmp
              have hold := ha i hi1 hi2 hicur
              rw [hpp] at hold
              rw [htr] at hold
              exact absurd hold (by simp)
          · rw [voth i hicur hip, voth (i / 2) hpc hpp]
            exact ha i hi1 hi2 hicur
    · intro hp2 c hcdisj hcle
      have hqc : cur / 2 / 2 ≠ cur := by omega
      have hqp : cur / 2 / 2 ≠ cur / 2 := by omega
      rw [voth (cur / 2 / 2) hqc hqp]
      by_cases hccur : c = cur
      · subst hccur
        rw [vcur]
        exact ha (c / 2) hp2 (by omega) (by omega)
      · have hcs : c ≠ cur / 2 := by omega
        rw [voth c hccur hcs]
        have e1 := ha c (by omega) hcle hccur
        have hc2eq : c / 2 = cur / 2 := by omega
        rw [hc2eq] at e1
        have e2 := ha (cur / 2) hp2 (by omega) (by omega)
        exact hN _ _ _ e1 e2
  | case2 h cur hguard =>
    intro hA hN hc1 hc2 hlen ha hb
    rw [Heap.upHeap, if_neg hguard]
    intro i hile hi1
    simp only [Heap.parent_idx] at hguard ⊢
    by_cases hic : i = cur
    · subst hic
      apply eq_false_of_ne_true
      intro hcmp
      exact hguard ⟨hi1, hcmp⟩
    · exact ha i hi1 hile hic

theorem add_heapProp [Inhabited α] (h : Heap α) (v : α)
    (hA : Asymm h.comparator) (hN : NegTrans h.comparator)
    (hwf : h.Wf) (hp : h.HeapProp) : (h.add v).HeapProp := by
  unfold add
  have hcmp : (h.addRaw v).comparator = h.comparator := rfl
  apply upHeap_heapProp
  · rw [hcmp]; exact hA
  · rw [hcmp]; exact hN
  · omega
  · rw [addRaw_count]
  · rw [addRaw_count]
    have := h.addRaw_length v hwf.1
    omega
  · intro i hi1 hi2 hine
    rw [addRaw_count] at hi2
    have hile : i ≤ h.count := by omega
    rw [hcmp, h.addRaw_getD_low v i hile hwf.1,
      h.addRaw_getD_low v (i / 2) (by omega) hwf.1]
    have := hp i hile hi1
    simp only [Heap.parent_idx] at this
    exact this
  · intro hgt c hcdisj hcle
    rw [addRaw_count] at hcle
    omega

theorem smallest_child_facts [Inhabited α] (h : Heap α) (cur : Nat) :
    (h.smallest_child_idx cur = 2 * cur + 1 ∧ 2 * cur + 1 ≤ h.count ∧
      h.comparator (h.items.getD (2 * cur + 1) default)
        (h.items.getD (2 * cur) default) = true) ∨
    (h.smallest_child_idx cur = 2 * cur ∧
      (2 * cur + 1 ≤ h.count →
        h.comparator (h.items.getD (2 * cur + 1) default)
          (h.items.getD (2 * cur) default) = false)) := by
  unfold smallest_child_idx right_child_idx left_child_idx
  split
  · next hyes =>
    left
    refine ⟨by omega, by omega, ?_⟩
    have := hyes.2
    have heq1 : cur * 2 + 1 = 2 * cur + 1 := by omega
    have heq2 : cur * 2 = 2 * cur := by omega
    rw [heq1, heq2] at this
    exact this
  · next hno =>
    right
    refine ⟨by omega, ?_⟩
    intro hle
    apply eq_false_of_ne_true
    intro hcmp
    apply hno
    constructor
    · omega
    · have heq1 : cur * 2 + 1 = 2 * cur + 1 := by omega
      have heq2 : cur * 2 = 2 * cur := by omega
      rw [heq1, heq2]
      exact hcmp

theorem downHeap_heapProp [Inhabited α] (h : Heap α) (cur : Nat) (hcur : 0 < cur) :
    Asymm h.comparator → NegTrans h.comparator →
    h.count < h.items.length →
    (∀ i, 1 < i → i ≤ h.count → i / 2 ≠ cur →
      h.comparator (h.items.getD i default) (h.items.getD (i / 2) default) = false) →
    (1 < cur → ∀ c, (c = 2 * cur ∨ c = 2 * cur + 1) → c ≤ h.count →
      h.comparator (h.items.getD c default) (h.items.getD (cur / 2) default) = false) →
    (h.downHeap cur hcur).HeapProp := by
  induction h, cur, hcur using Heap.downHeap.induct with
  | case1 h cur hcur hc hguard ih =>
    intro hA hN hlen ha hb
    rw [Heap.downHeap, dif_pos hc, if_pos hguard]
    have hchild : 2 * cur ≤ h.count := by
      unfold children_present left_child_idx at hc
      simp only [decide_eq_true_eq] at hc
      omega
    have hsfacts := h.smallest_child_facts cur
    have hs_disj : h.smallest_child_idx cur = 2 * cur ∨
        h.smallest_child_idx cur = 2 * cur + 1 := by
      rcases hsfacts with ⟨he, _, _⟩ | ⟨he, _⟩
      · exact Or.inr he
      · exact Or.inl he
    have hs_le : h.smallest_child_idx cur ≤ h.count := h.smallest_child_idx_le_count cur hc
    have hs_gt : cur < h.smallest_child_idx cur := h.smallest_child_idx_pos cur hcur
    have hcur_le : cur ≤ h.count := by omega
    have hs_lt_len : h.smallest_child_idx cur < h.items.length := by omega
    have hcur_lt_len : cur < h.items.length := by omega
    set s := h.smallest_child_idx cur with hs_def
    have hs2c : s / 2 = cur := by omega
    have vs : (listSwap h.items s cur).getD s default = h.items.getD cur default :=
      getD_listSwap_left _ _ _ hs_lt_len
    have vc : (listSwap h.items s cur).getD cur default = h.items.getD s default :=
      getD_listSwap_right _ _ _ hcur_lt_len
    have voth : ∀ k, k ≠ s → k ≠ cur →
        (listSwap h.items s cur).getD k default = h.items.getD k default :=
      fun k hk1 hk2 => getD_listSwap_of_ne _ _ _ _ hk1 hk2
    apply ih hA hN (by dsimp only; rw [length_listSwap]; omega)
    · intro i hi1 hi2 hip
      have hi2b : i ≤ h.count := hi2
      show h.comparator ((listSwap h.items s cur).getD i default)
          ((listSwap h.items s cur).getD (i / 2) default) = false
      by_cases his : i = s
      · rw [his, hs2c, vs, vc]
        exact hA _ _ hguard
      · by_cases hic : i = cur
        · rw [hic, vc, voth (cur / 2) (by omega) (by omega)]
          exact hb (by omega) s (by omega) hs_le
        · by_cases hpc : i / 2 = cur
          · rw [voth i his hic, hpc, vc]
            rcases hsfacts with ⟨he, hle, hcmp2⟩ | ⟨he, hcmp2⟩
            · have hio : i = 2 * cur := by omega
              rw [hio, he]
              exact hA _ _ hcmp2
            · have hio : i = 2 * cur + 1 := by omega
              rw [hio, he]
              exact hcmp2 (by omega)
          · rw [voth i his hic, voth (i / 2) hip hpc]
            exact ha i hi1 hi2b hpc
    · intro hs1 c hcdisj hcle
      have hcleb : c ≤ h.count := hcle
      show h.comparator ((listSwap h.items s cur).getD c default)
          ((listSwap h.items s cur).getD (s / 2) default) = false
      have hcns : c ≠ s := by omega
      have hcnc : c ≠ cur := by omega
      rw [hs2c, vc, voth c hcns hcnc]
      have e1 := ha c (by omega) hcleb (by omega)
      have hc2s : c / 2 = s := by omega
      rw [hc2s] at e1
      exact e1
  | case2 h cur hcur hc hguard =>
    intro hA hN hlen ha hb
    rw [Heap.downHeap, dif_pos hc, if_neg hguard]
    have hchild : 2 * cur ≤ h.count := by
      unfold children_present left_child_idx at hc
      simp only [decide_eq_true_eq] at hc
      omega
    have hsfacts := h.smallest_child_facts cur
    set s := h.smallest_child_idx cur with hs_def
    have hguard2 : h.comparator (h.items.getD s default) (h.items.getD cur default)
        = false := eq_false_of_ne_true hguard
    intro i hile hi1
    simp only [Heap.parent_idx]
    by_cases hpc : i / 2 = cur
    · rcases hsfacts with ⟨he, hle, hcmp2⟩ | ⟨he, hcmp2⟩
      · rw [he] at hguard2
        by_cases hir : i = 2 * cur + 1
        · rw [hpc, hir]
          exact hguard2
        · have hil : i = 2 * cur := by omega
          rw [hpc, hil]
          cases hx : h.comparator (h.items.getD (2 * cur) default)
              (h.items.getD cur default) with
          | false => rfl
          | true =>
            have htr := cmp_trans h.comparator hA hN _ _ _ hcmp2 hx
            rw [htr] at hguard2
            exact absurd hguard2 (by simp)
      · rw [he] at hguard2
        by_cases hil : i = 2 * cur
        · rw [hpc, hil]
          exact hguard2
        · have hir : i = 2 * cur + 1 := by omega
          rw [hpc, hir]
          exact hN _ _ _ (hcmp2 (by omega)) hguard2
    · exact ha i hi1 hile hpc
  | case3 h cur hcur hc =>
    intro hA hN hlen ha hb
    rw [Heap.downHeap, dif_neg hc]
    have hnochild : ¬ (2 * cur ≤ h.count) := by
      intro hcontra
      apply hc
      unfold children_present left_child_idx
      simp only [decide_eq_true_eq]
      omega
    intro i hile hi1
    simp only [Heap.parent_idx]
    apply ha i hi1 hile
    omega

theorem getD_set_ne [Inhabited α] (l : List α) (m k : Nat) (a : α) (hk : k ≠ m) :
    (l.set m a).getD k default = l.getD k default := by
  simp [List.getElem?_set_ne (Ne.symm hk)]

theorem next_heapProp [Inhabited α] (h : Heap α)
    (hA : Asymm h.comparator) (hN : NegTrans h.comparator)
    (hwf : h.Wf) (hp : h.HeapProp) : (h.next).2.HeapProp := by
  by_cases h0 : h.count = 0
  · rw [h.next_of_empty h0]
    exact hp
  · have hP : h.popDown.HeapProp := by
      unfold popDown
      apply downHeap_heapProp
      · rw [popSwap_comparator]
        exact hA
      · rw [popSwap_comparator]
        exact hN
      · rw [popSwap_count, popSwap_length]
        have := hwf.1
        omega
      · intro j hj1 hj2 hjp
        have hj2b : j ≤ h.count - 1 := hj2
        show h.comparator ((listSwap h.items 1 h.count).getD j default)
            ((listSwap h.items 1 h.count).getD (j / 2) default) = false
        rw [getD_listSwap_of_ne _ _ _ _ (by omega) (by omega),
          getD_listSwap_of_ne _ _ _ _ (by omega) (by omega)]
        have := hp j (by omega) hj1
        simp only [Heap.parent_idx] at this
        exact this
      · intro h11
        exact absurd h11 (by omega)
    rw [h.next_of_pos h0]
    intro i hile hi1
    have hileb : i ≤ h.popDown.count := hile
    simp only [Heap.parent_idx]
    show h.popDown.comparator
        ((h.popDown.items.set (h.popDown.count + 1) default).getD i default)
        ((h.popDown.items.set (h.popDown.count + 1) default).getD (i / 2) default) = false
    rw [getD_set_ne _ _ _ _ (by omega), getD_set_ne _ _ _ _ (by omega)]
    have := hP i hileb hi1
    simp only [Heap.parent_idx] at this
    exact this

theorem new_heapProp [Inhabited α] (cmp : α → α → Bool) : (Heap.new cmp).HeapProp := by
  intro i hile hi1
  unfold new at hile
  simp only at hile
  omega

theorem heapProp_root_min [Inhabited α] (h : Heap α)
    (hA : Asymm h.comparator) (hN : NegTrans h.comparator) (hp : h.HeapProp) :
    ∀ k, 1 ≤ k → k ≤ h.count →
      h.comparator (h.items.getD k default) (h.items.getD 1 default) = false := by
  intro k
  induction k using Nat.strong_induction_on with
  | _ k ih =>
    intro hk1 hk2
    by_cases hk : k = 1
    · rw [hk]
      exact cmp_irrefl h.comparator hA _
    · have hkgt : 1 < k := by omega
      have hedge := hp k hk2 hkgt
      simp only [Heap.parent_idx] at hedge
      have hpar := ih (k / 2) (by omega) (by omega) (by omega)
      exact hN _ _ _ hedge hpar

theorem liveM_mem [Inhabited α] (h : Heap α) (hwf : h.Wf) (x : α)
    (hx : x ∈ h.liveM) :
    ∃ k, 1 ≤ k ∧ k ≤ h.count ∧ h.items.getD k default = x := by
  unfold liveM at hx
  rw [Multiset.mem_coe] at hx
  obtain ⟨n, hn⟩ := List.getElem?_of_mem hx
  have hn2 := h.liveList_getElem? n
  rw [hn] at hn2
  by_cases hlt : n < h.count
  · rw [if_pos hlt] at hn2
    refine ⟨n + 1, by omega, by omega, ?_⟩
    simp [← hn2]
  · rw [if_neg hlt] at hn2
    exact absurd hn2 (by simp)

theorem runS_heapProp {α2 : Type} [Inhabited α2] (h : Heap α2) (ops : List (HeapOp α2))
    (hA : Asymm h.comparator) (hN : NegTrans h.comparator)
    (hwf : h.Wf) (hp : h.HeapProp) : (runS h ops).1.HeapProp := by
  induction ops generalizing h with
  | nil => exact hp
  | cons op ops ih =>
    cases op with
    | add v =>
      exact ih (h.add v) (by rw [h.add_comparator v]; exact hA)
        (by rw [h.add_comparator v]; exact hN) (h.add_wf v hwf)
        (h.add_heapProp v hA hN hwf hp)
    | next =>
      exact ih (h.next).2 (by rw [h.next_snd_comparator]; exact hA)
        (by rw [h.next_snd_comparator]; exact hN) (h.next_wf hwf)
        (h.next_heapProp hA hN hwf hp)

end Heap

theorem buildHeap_wf {α : Type} [Inhabited α] (h : Heap α) (vs : List α) (hwf : h.Wf) :
    (buildHeap h vs).Wf := by
  induction vs generalizing h with
  | nil => exact hwf
  | cons v vs ih => exact ih (h.add v) (h.add_wf v hwf)

theorem buildHeap_comparator {α : Type} [Inhabited α] (h : Heap α) (vs : List α) :
    (buildHeap h vs).comparator = h.comparator := by
  induction vs generalizing h with
  | nil => rfl
  | cons v vs ih =>
    show (buildHeap (h.add v) vs).comparator = h.comparator
    rw [ih (h.add v), h.add_comparator]

theorem buildHeap_heapProp {α : Type} [Inhabited α] (h : Heap α) (vs : List α)
    (hA : Asymm h.comparator) (hN : NegTrans h.comparator)
    (hwf : h.Wf) (hp : h.HeapProp) : (buildHeap h vs).HeapProp := by
  induction vs generalizing h with
  | nil => exact hp
  | cons v vs ih =>
    exact ih (h.add v) (by rw [h.add_comparator v]; exact hA)
      (by rw [h.add_comparator v]; exact hN) (h.add_wf v hwf)
      (h.add_heapProp v hA hN hwf hp)

theorem buildHeap_liveM {α : Type} [Inhabited α] (h : Heap α) (vs : List α) (hwf : h.Wf) :
    (buildHeap h vs).liveM = h.liveM + ↑vs := by
  induction vs generalizing h with
  | nil => simp [buildHeap]
  | cons v vs ih =>
    show (buildHeap (h.add v) vs).liveM = _
    rw [ih (h.add v) (h.add_wf v hwf), h.add_liveM v hwf, ← Multiset.cons_coe]
    rw [Multiset.add_cons, Multiset.cons_add]

theorem drain_liveM {α : Type} [Inhabited α] (h : Heap α) (hwf : h.Wf) :
    (↑h.drain : Multiset α) = h.liveM := by
  suffices H : ∀ n (h : Heap α), h.count = n → h.Wf → (↑h.drain : Multiset α) = h.liveM by
    exact H h.count h rfl hwf
  intro n
  induction n using Nat.strong_induction_on with
  | _ n ih =>
    intro h hcn hwf2
    by_cases h0 : h.count = 0
    · rw [drain_of_zero h h0]
      unfold Heap.liveM Heap.liveList
      rw [h0]
      simp
    · have hne : 0 < h.count := by omega
      have hspec := h.next_spec hwf2 hne
      rcases hn : h.next with ⟨v?, h2⟩
      have hv : v? = some h.root := by rw [hn] at hspec; exact hspec.1
      rw [hv] at hn
      rw [drain_eq_cons h h.root h2 hn, ← Multiset.cons_coe]
      have hcnt : h2.count = h.count - 1 := by
        have := hspec.2.1
        rw [hn] at this
        exact this
      have hwf3 : h2.Wf := by
        have := hspec.2.2.2.2.2.1
        rw [hn] at this
        exact this
      rw [ih h2.count (by omega) h2 rfl hwf3]
      have := hspec.2.2.2.2.2.2
      rw [hn] at this
      exact this

theorem drain_sorted {α : Type} [Inhabited α] (h : Heap α)
    (hA : Asymm h.comparator) (hN : NegTrans h.comparator)
    (hwf : h.Wf) (hp : h.HeapProp) :
    List.Pairwise (fun a b => h.comparator b a = false) h.drain := by
  suffices H : ∀ n (h : Heap α), h.count = n → Asymm h.comparator → NegTrans h.comparator →
      h.Wf → h.HeapProp → List.Pairwise (fun a b => h.comparator b a = false) h.drain by
    exact H h.count h rfl hA hN hwf hp
  intro n
  induction n using Nat.strong_induction_on with
  | _ n ih =>
    intro h hcn hA2 hN2 hwf2 hp2
    by_cases h0 : h.count = 0
    · rw [drain_of_zero h h0]
      exact List.Pairwise.nil
    · have hne : 0 < h.count := by omega
      have hspec := h.next_spec hwf2 hne
      rcases hn : h.next with ⟨v?, h2⟩
      have hv : v? = some h.root := by rw [hn] at hspec; exact hspec.1
      rw [hv] at hn
      have hcnt : h2.count = h.count - 1 := by
        have := hspec.2.1
        rw [hn] at this
        exact this
      have hcmp2 : h2.comparator = h.comparator := by
        have := hspec.2.2.1
        rw [hn] at this
        exact this
      have hwf3 : h2.Wf := by
        have := hspec.2.2.2.2.2.1
        rw [hn] at this
        exact this
      have hlive : h.root ::ₘ h2.liveM = h.liveM := by
        have := hspec.2.2.2.2.2.2
        rw [hn] at this
        exact this
      have hp3 : h2.HeapProp := by
        have := h.next_heapProp hA2 hN2 hwf2 hp2
        rw [hn] at this
        exact this
      rw [drain_eq_cons h h.root h2 hn]
      constructor
      · intro x hxdrain
        have hxlive : x ∈ h2.liveM := by
          rw [← drain_liveM h2 hwf3]
          exact Multiset.mem_coe.mpr hxdrain
        have hxliveh : x ∈ h.liveM := by
          rw [← hlive]
          exact Multiset.mem_cons_of_mem hxlive
        obtain ⟨k, hk1, hk2, hk3⟩ := h.liveM_mem hwf2 x hxliveh
        have := h.heapProp_root_min hA2 hN2 hp2 k hk1 hk2
        rw [hk3] at this
        exact this
      · have := ih h2.count (by omega) h2 rfl
          (by rw [hcmp2]; exact hA2) (by rw [hcmp2]; exact hN2) hwf3 hp3
        rw [hcmp2] at this
        exact this

theorem upHeapF_adequate {α : Type} [Inhabited α] (fuel : Nat) (h : Heap α) (cur : Nat)
    (hf : cur ≤ fuel) : Heap.upHeapF fuel h cur = some (h.upHeap cur) := by
  induction fuel generalizing h cur with
  | zero =>
    have hcur0 : cur = 0 := by omega
    subst hcur0
    simp only [Heap.upHeapF]
    rw [if_neg (fun hg => absurd hg.1 (by omega)), Heap.upHeap,
      if_neg (fun hg => absurd hg.1 (by omega))]
  | succ f ihf =>
    by_cases hg : 1 < cur ∧
        h.comparator (h.items.getD cur default) (h.items.getD (h.parent_idx cur) default) = true
    · simp only [Heap.upHeapF]
      rw [if_pos hg]
      have heq : h.upHeap cur
          = ({ h with items := listSwap h.items cur (h.parent_idx cur) } : Heap α).upHeap
              (h.parent_idx cur) := by
        rw [Heap.upHeap, if_pos hg]
      rw [heq]
      apply ihf
      have := hg.1
      simp only [Heap.parent_idx]
      omega
    · simp only [Heap.upHeapF]
      rw [if_neg hg, Heap.upHeap, if_neg hg]

theorem downHeapF_adequate {α : Type} [Inhabited α] (fuel : Nat) (h : Heap α) (cur : Nat)
    (hcur : 0 < cur) (hf : h.count + 1 - cur ≤ fuel) :
    Heap.downHeapF fuel h cur = some (h.downHeap cur hcur) := by
  induction fuel generalizing h cur with
  | zero =>
    have hnc : ¬ (h.children_present cur = true) := by
      unfold Heap.children_present Heap.left_child_idx
      simp only [decide_eq_true_eq]
      omega
    simp only [Heap.downHeapF]
    rw [if_neg (fun hg => hnc hg.1), Heap.downHeap, dif_neg hnc]
  | succ f ihf =>
    by_cases hc : h.children_present cur = true
    · by_cases hg : h.comparator (h.items.getD (h.smallest_child_idx cur) default)
          (h.items.getD cur default) = true
      · simp only [Heap.downHeapF]
        rw [if_pos hc, if_pos hg]
        have hs_gt := h.smallest_child_idx_pos cur hcur
        have hs_le := h.smallest_child_idx_le_count cur hc
        have heq : h.downHeap cur hcur
            = ({ h with items := listSwap h.items (h.smallest_child_idx cur) cur } : Heap α).downHeap
                (h.smallest_child_idx cur)
                (by unfold Heap.smallest_child_idx Heap.right_child_idx Heap.left_child_idx
                    split <;> omega) := by
          rw [Heap.downHeap, dif_pos hc, if_pos hg]
        rw [heq]
        apply ihf
        show h.count + 1 - h.smallest_child_idx cur ≤ f
        omega
      · simp only [Heap.downHeapF]
        rw [if_pos hc, if_neg hg, Heap.downHeap, dif_pos hc, if_neg hg]
    · simp only [Heap.downHeapF]
      rw [if_neg hc, Heap.downHeap, dif_neg hc]

theorem Heap.upHeapAcc_bound {α : Type} [Inhabited α] (h : Heap α) (cur : Nat) :
    ∀ i ∈ h.upHeapAcc cur, 1 ≤ i ∧ i ≤ cur := by
  induction h, cur using Heap.upHeapAcc.induct with
  | case1 h cur h1 hcmp ih =>
    rw [Heap.upHeapAcc, if_pos h1, if_pos hcmp]
    intro i hi
    rcases List.mem_cons.mp hi with hi | hi
    · omega
    · rcases List.mem_cons.mp hi with hi | hi
      · simp only [Heap.parent_idx] at hi
        omega
      · have := ih i hi
        simp only [Heap.parent_idx] at this
        omega
  | case2 h cur h1 hcmp =>
    rw [Heap.upHeapAcc, if_pos h1, if_neg hcmp]
    intro i hi
    rcases List.mem_cons.mp hi with hi | hi
    · omega
    · rcases List.mem_cons.mp hi with hi | hi
      · simp only [Heap.parent_idx] at hi
        omega
      · simp at hi
  | case3 h cur h1 =>
    rw [Heap.upHeapAcc, if_neg h1]
    intro i hi
    simp at hi

theorem Heap.smallestChildAcc_bound {α : Type} (h : Heap α) (idx : Nat) (hidx : 0 < idx) :
    ∀ i ∈ h.smallestChildAcc idx, 1 ≤ i ∧ i ≤ h.count := by
  unfold Heap.smallestChildAcc Heap.right_child_idx Heap.left_child_idx
  split
  · next hyes =>
    intro i hi
    rcases List.mem_cons.mp hi with hi | hi
    · omega
    · rcases List.mem_cons.mp hi with hi | hi
      · omega
      · simp at hi
  · intro i hi
    simp at hi

theorem Heap.downHeapAcc_bound {α : Type} [Inhabited α] (h : Heap α) (cur : Nat)
    (hcur : 0 < cur) : ∀ i ∈ h.downHeapAcc cur hcur, 1 ≤ i ∧ i ≤ h.count := by
  induction h, cur, hcur using Heap.downHeapAcc.induct with
  | case1 h cur hcur hc ih =>
    rw [Heap.downHeapAcc, dif_pos hc]
    have hs_le := h.smallest_child_idx_le_count cur hc
    have hs_gt := h.smallest_child_idx_pos cur hcur
    have hcur_le := h.le_count_of_children_present cur hcur hc
    intro i hi
    rcases List.mem_append.mp hi with hi | hi
    · rcases List.mem_append.mp hi with hi | hi
      · exact h.smallestChildAcc_bound cur hcur i hi
      · rcases List.mem_cons.mp hi with hi | hi
        · omega
        · rcases List.mem_cons.mp hi with hi | hi
          · omega
          · simp at hi
    · split at hi
      · exact ih i hi
      · simp at hi
  | case2 h cur hcur hc =>
    rw [Heap.downHeapAcc, dif_neg hc]
    intro i hi
    simp at hi

theorem Heap.addAcc_bound {α : Type} [Inhabited α] (h : Heap α) (v : α) (hwf : h.Wf) :
    ∀ i ∈ h.addAcc v, 1 ≤ i ∧ i < (h.addRaw v).items.length := by
  have hlen := h.addRaw_length v hwf.1
  intro i hi
  rcases List.mem_append.mp hi with hi | hi
  · split at hi
    · simp at hi
    · next hbranch =>
      rcases List.mem_cons.mp hi with hi | hi
      · omega
      · simp at hi
  · have := (h.addRaw v).upHeapAcc_bound (h.count + 1) i hi
    omega

theorem Heap.nextAcc_bound {α : Type} [Inhabited α] (h : Heap α) (hwf : h.Wf) :
    ∀ i ∈ h.nextAcc, 1 ≤ i ∧ i < h.items.length := by
  unfold Heap.nextAcc
  split
  · intro i hi
    simp at hi
  · next hne =>
    rw [h.is_empty_iff] at hne
    have hlen := hwf.1
    intro i hi
    rcases List.mem_cons.mp hi with hi | hi
    · omega
    · rcases List.mem_cons.mp hi with hi | hi
      · omega
      · rcases List.mem_append.mp hi with hi | hi
        · have := h.popSwap.downHeapAcc_bound 1 Nat.one_pos i hi
          rw [Heap.popSwap_count] at this
          omega
        · rcases List.mem_cons.mp hi with hi | hi
          · rw [Heap.popSwap_count] at hi
            omega
          · simp at hi

theorem asymm_lt {α : Type} [LinearOrder α] : Asymm (fun a b : α => decide (a < b)) := by
  intro a b hab
  simp only [decide_eq_true_eq] at hab
  simp only [decide_eq_false_iff_not]
  exact not_lt.mpr hab.le

theorem negtrans_lt {α : Type} [LinearOrder α] : NegTrans (fun a b : α => decide (a < b)) := by
  intro a b c hab hbc
  simp only [decide_eq_false_iff_not, not_lt] at hab hbc ⊢
  exact le_trans hbc hab

theorem asymm_gt {α : Type} [LinearOrder α] : Asymm (fun a b : α => decide (a > b)) := by
  intro a b hab
  simp only [decide_eq_true_eq] at hab
  simp only [decide_eq_false_iff_not]
  exact not_lt.mpr hab.le

theorem negtrans_gt {α : Type} [LinearOrder α] : NegTrans (fun a b : α => decide (a > b)) := by
  intro a b c hab hbc
  simp only [decide_eq_false_iff_not, not_lt] at hab hbc ⊢
  exact le_trans hab hbc

theorem drain_build_sorted_perm {α : Type} [Inhabited α] (cmp : α → α → Bool)
    (hA : Asymm cmp) (hN : NegTrans cmp) (vs : List α) :
    (buildHeap (Heap.new cmp) vs).drain.Perm vs ∧
    List.Pairwise (fun a b => cmp b a = false) (buildHeap (Heap.new cmp) vs).drain := by
  have hwf0 := Heap.new_wf cmp
  have hbwf := buildHeap_wf (Heap.new cmp) vs hwf0
  have hcmp := buildHeap_comparator (Heap.new cmp) vs
  have hliv := buildHeap_liveM (Heap.new cmp) vs hwf0
  rw [Heap.new_liveM, zero_add] at hliv
  constructor
  · rw [← Multiset.coe_eq_coe, drain_liveM _ hbwf, hliv]
  · have := drain_sorted (buildHeap (Heap.new cmp) vs)
      (by rw [hcmp]; exact hA) (by rw [hcmp]; exact hN) hbwf
      (buildHeap_heapProp (Heap.new cmp) vs hA hN hwf0 (Heap.new_heapProp cmp))
    rw [hcmp] at this
    exact this

/-- Claim C1: for every finite sequence of values added to a heap constructed
with `new_min` (resp. `new_max`) on a totally ordered element type, repeatedly
calling `next()` until it returns `none` yields exactly the inserted values,
in ascending order for the min-heap and descending order for the max-heap. -/
theorem c1_sorted_extraction {α : Type} [Inhabited α] [LinearOrder α] (vs : List α) :
    (buildHeap (Heap.new_min α) vs).drain.Perm vs ∧
    List.Sorted (· ≤ ·) (buildHeap (Heap.new_min α) vs).drain ∧
    (buildHeap (Heap.new_max α) vs).drain.Perm vs ∧
    List.Sorted (· ≥ ·) (buildHeap (Heap.new_max α) vs).drain := by
  obtain ⟨hperm1, hsort1⟩ :=
    drain_build_sorted_perm (fun a b : α => decide (a < b)) asymm_lt negtrans_lt vs
  obtain ⟨hperm2, hsort2⟩ :=
    drain_build_sorted_perm (fun a b : α => decide (a > b)) asymm_gt negtrans_gt vs
  refine ⟨hperm1, ?_, hperm2, ?_⟩
  · apply List.Pairwise.imp ?_ hsort1
    intro a b hr
    simp only [decide_eq_false_iff_not, not_lt] at hr
    exact hr
  · apply List.Pairwise.imp ?_ hsort2
    intro a b hr
    simp only [decide_eq_false_iff_not, not_lt] at hr
    exact hr

/-- Claim C2 (counterexample): with the comparator that always answers `true`
(a legal `fn(&T, &T) -> bool`), adding `0` and then `1` to a fresh heap leaves
a state in which the child at index 2 still outranks its parent, so the
heap-property invariant does not hold for arbitrary comparator predicates. -/
theorem c2_heap_property_counterexample :
    ¬ (runHeap (Heap.new (fun _ _ : Nat => true)) [HeapOp.add 0, HeapOp.add 1]).HeapProp := by
  have hh : runHeap (Heap.new (fun _ _ : Nat => true)) [HeapOp.add 0, HeapOp.add 1]
      = { count := 2, items := [0, 1, 0], comparator := fun _ _ => true } := by
    simp [runHeap, runS, Heap.add, Heap.addRaw, Heap.upHeap, Heap.new, listSwap,
      Heap.parent_idx]
  intro hp
  rw [hh] at hp
  have := hp 2 (by decide) (by decide)
  simp at this

/-- Claim C2 (amended): for every heap whose comparator is asymmetric and
negatively transitive (a strict weak order, as `<` and `>` of a total order
are), after any sequence of `add`/`next` calls from construction, every live
index `i` with `1 < i ≤ count` satisfies
`comparator(items[i], items[parent_idx(i)]) = false`. -/
theorem c2_heap_property_swo {α : Type} [Inhabited α] (cmp : α → α → Bool)
    (hA : Asymm cmp) (hN : NegTrans cmp) (ops : List (HeapOp α)) :
    (runHeap (Heap.new cmp) ops).HeapProp :=
  Heap.runS_heapProp (Heap.new cmp) ops hA hN (Heap.new_wf cmp) (Heap.new_heapProp cmp)

/-- Witness for the amended claim C2 at a concrete strict-weak-order
comparator and call sequence. -/
theorem c2_heap_property_swo_witness :
    Asymm (fun a b : Nat => decide (a < b)) ∧
    NegTrans (fun a b : Nat => decide (a < b)) ∧
    (runHeap (Heap.new (fun a b : Nat => decide (a < b)))
      [HeapOp.add 4, HeapOp.add 2, HeapOp.next, HeapOp.add 1]).HeapProp :=
  ⟨asymm_lt, negtrans_lt,
    c2_heap_property_swo (fun a b : Nat => decide (a < b)) asymm_lt negtrans_lt
      [HeapOp.add 4, HeapOp.add 2, HeapOp.next, HeapOp.add 1]⟩

/-- Claim C3: on every heap reachable from construction, every vector index
read or written by `add` and `next` is at least 1 (slot 0 is never touched)
and strictly below the length of the backing vector at the moment of the
access; `len` and `is_empty` access no vector index at all. -/
theorem c3_access_safety {α : Type} [Inhabited α] (cmp : α → α → Bool)
    (ops : List (HeapOp α)) (v : α) :
    (∀ i ∈ (runHeap (Heap.new cmp) ops).addAcc v,
      1 ≤ i ∧ i < ((runHeap (Heap.new cmp) ops).addRaw v).items.length) ∧
    (∀ i ∈ (runHeap (Heap.new cmp) ops).nextAcc,
      1 ≤ i ∧ i < (runHeap (Heap.new cmp) ops).items.length) ∧
    (runHeap (Heap.new cmp) ops).lenAcc = [] ∧
    (runHeap (Heap.new cmp) ops).isEmptyAcc = [] := by
  have hwf := runS_wf (Heap.new cmp) ops (Heap.new_wf cmp)
  exact ⟨(runHeap (Heap.new cmp) ops).addAcc_bound v hwf,
    (runHeap (Heap.new cmp) ops).nextAcc_bound hwf, rfl, rfl⟩

/-- Witness for claim C3: a concrete access performed by `next` on a concrete
reachable heap, shown in bounds and nonzero. -/
theorem c3_access_safety_witness :
    (1 : Nat) ∈ (runHeap (Heap.new (fun a b : Nat => decide (a < b)))
        [HeapOp.add 5, HeapOp.add 3]).nextAcc ∧
    1 ≤ 1 ∧ 1 < (runHeap (Heap.new (fun a b : Nat => decide (a < b)))
        [HeapOp.add 5, HeapOp.add 3]).items.length := by
  have hmem : (1 : Nat) ∈ (runHeap (Heap.new (fun a b : Nat => decide (a < b)))
      [HeapOp.add 5, HeapOp.add 3]).nextAcc := by
    simp [runHeap, runS, Heap.add, Heap.addRaw, Heap.upHeap, Heap.new, listSwap,
      Heap.parent_idx, Heap.nextAcc, Heap.popSwap, Heap.downHeapAcc, Heap.is_empty,
      Heap.len, Heap.children_present, Heap.left_child_idx, Heap.smallestChildAcc,
      Heap.right_child_idx, Heap.smallest_child_idx]
  exact ⟨hmem, (c3_access_safety (fun a b : Nat => decide (a < b))
      [HeapOp.add 5, HeapOp.add 3] 0).2.1 1 hmem⟩

/-- Claim C4: at every point in any call sequence starting from a fresh heap,
`len()` equals the number of `add` calls minus the number of `next` calls
that returned a value, and `is_empty()` is true exactly when that difference
is zero. -/
theorem c4_size_accounting {α : Type} [Inhabited α] (cmp : α → α → Bool)
    (ops : List (HeapOp α)) :
    (runS (Heap.new cmp) ops).1.len + (runS (Heap.new cmp) ops).2 = numAdds ops ∧
    ((runS (Heap.new cmp) ops).1.is_empty = true ↔
      numAdds ops - (runS (Heap.new cmp) ops).2 = 0) := by
  have hacc := runS_accounting (Heap.new cmp) ops
  have h0 : (Heap.new cmp).count = 0 := rfl
  rw [h0] at hacc
  constructor
  · unfold Heap.len
    omega
  · unfold Heap.is_empty Heap.len
    simp only [beq_iff_eq]
    omega

/-- Claim C5: on every well-formed non-empty heap, `next()` returns the
element that was at the root (index 1) before the call, and afterwards the
storage slot at index `count + 1` (just past the new count, a real slot of
the vector) holds the element type's default value. -/
theorem c5_extract_root_placeholder {α : Type} [Inhabited α] (h : Heap α)
    (hwf : h.Wf) (hne : 0 < h.count) :
    (h.next).1 = some (h.items.getD 1 default) ∧
    (h.next).2.items.getD ((h.next).2.count + 1) default = default ∧
    (h.next).2.count + 1 < (h.next).2.items.length := by
  have hspec := h.next_spec hwf hne
  have hcnt : (h.next).2.count = h.count - 1 := hspec.2.1
  have hlen : (h.next).2.items.length = h.items.length := hspec.2.2.2.1
  have hslot : (h.next).2.items[h.count]? = some default := hspec.2.2.2.2.1
  have hc1 : (h.next).2.count + 1 = h.count := by omega
  refine ⟨hspec.1, ?_, ?_⟩
  · rw [hc1]
    simp [hslot]
  · rw [hc1, hlen]
    have := hwf.1
    omega

/-- Witness for claim C5 at a concrete well-formed non-empty heap. -/
theorem c5_extract_root_placeholder_witness :
    ({ count := 2, items := [0, 3, 5], comparator := (fun a b : Nat => decide (a < b)) }
      : Heap Nat).Wf ∧
    0 < ({ count := 2, items := [0, 3, 5], comparator := (fun a b : Nat => decide (a < b)) }
      : Heap Nat).count ∧
    (({ count := 2, items := [0, 3, 5], comparator := (fun a b : Nat => decide (a < b)) }
      : Heap Nat).next).1 =
      some (({ count := 2, items := [0, 3, 5], comparator := (fun a b : Nat => decide (a < b)) } : Heap Nat).items.getD 1 default) :=
  ⟨by decide, by decide,
    (c5_extract_root_placeholder _ (by decide) (by decide)).1⟩

/-- Claim C6: on every well-formed heap, `add(v)` increments `count` by one,
first placing `v` at the new logical index `count` (appending when `count`
reaches the vector length, otherwise overwriting the stale slot), and only
then running the up-heap repair; `add` is total. -/
theorem c6_add_places_value {α : Type} [Inhabited α] (h : Heap α) (v : α) (hwf : h.Wf) :
    (h.add v).count = h.count + 1 ∧
    (h.addRaw v).count = h.count + 1 ∧
    (h.addRaw v).items.getD (h.count + 1) default = v ∧
    h.add v = (h.addRaw v).upHeap (h.count + 1) ∧
    (h.items.length ≤ h.count + 1 → (h.addRaw v).items = h.items ++ [v]) ∧
    (h.count + 1 < h.items.length → (h.addRaw v).items = h.items.set (h.count + 1) v) := by
  refine ⟨h.add_count v, rfl, h.addRaw_getD_new v hwf.1, rfl, ?_, ?_⟩
  · intro hle
    unfold Heap.addRaw
    dsimp only
    rw [if_pos hle]
  · intro hlt
    unfold Heap.addRaw
    dsimp only
    rw [if_neg (by omega)]

/-- Witness for claim C6 at a concrete well-formed heap. -/
theorem c6_add_places_value_witness :
    ({ count := 1, items := [0, 3], comparator := (fun a b : Nat => decide (a < b)) }
      : Heap Nat).Wf ∧
    (({ count := 1, items := [0, 3], comparator := (fun a b : Nat => decide (a < b)) }
      : Heap Nat).add 7).count =
      ({ count := 1, items := [0, 3], comparator := (fun a b : Nat => decide (a < b)) }
        : Heap Nat).count + 1 :=
  ⟨by decide, (c6_add_places_value _ 7 (by decide)).1⟩

/-- Claim C7: `next()` on an empty heap returns `none` and leaves the state
completely unchanged; `len()` stays 0 and `is_empty()` stays true, and this
persists for any number of repeated `next()` calls. -/
theorem c7_empty_next_noop {α : Type} [Inhabited α] (h : Heap α) (h0 : h.count = 0) :
    h.next = (none, h) ∧ h.len = 0 ∧ h.is_empty = true ∧
    ∀ n : Nat, (fun s : Heap α => (s.next).2)^[n] h = h := by
  refine ⟨h.next_of_empty h0, h0, h.is_empty_iff.mpr h0, ?_⟩
  intro n
  induction n with
  | zero => rfl
  | succ m ih =>
    have hstep : (h.next).2 = h := by rw [h.next_of_empty h0]
    rw [Function.iterate_succ_apply]
    show (fun s : Heap α => (s.next).2)^[m] ((h.next).2) = h
    rw [hstep, ih]

/-- Witness for claim C7 at a freshly constructed heap. -/
theorem c7_empty_next_noop_witness :
    (Heap.new (fun a b : Nat => decide (a < b))).count = 0 ∧
    (Heap.new (fun a b : Nat => decide (a < b))).next
      = (none, Heap.new (fun a b : Nat => decide (a < b))) :=
  ⟨rfl, (c7_empty_next_noop _ rfl).1⟩

/-- Claim C8: both repair loops terminate for every heap state and every
comparator: the fuelled up-heap loop reaches its exit within `cur`
iterations (the index strictly decreases), and the fuelled down-heap loop
within `count + 1 - cur` iterations (the index at least doubles while
bounded by `count`), each computing exactly the loop's result. -/
theorem c8_repair_loops_terminate {α : Type} [Inhabited α] (h : Heap α) (cur : Nat)
    (hcur : 0 < cur) (fuelU fuelD : Nat) (hU : cur ≤ fuelU)
    (hD : h.count + 1 - cur ≤ fuelD) :
    Heap.upHeapF fuelU h cur = some (h.upHeap cur) ∧
    Heap.downHeapF fuelD h cur = some (h.downHeap cur hcur) :=
  ⟨upHeapF_adequate fuelU h cur hU, downHeapF_adequate fuelD h cur hcur hD⟩

/-- Witness for claim C8 at a concrete heap, index and fuels. -/
theorem c8_repair_loops_terminate_witness :
    0 < 1 ∧ 1 ≤ 1 ∧
    ({ count := 2, items := [0, 3, 5], comparator := (fun a b : Nat => decide (a < b)) }
      : Heap Nat).count + 1 - 1 ≤ 2 ∧
    Heap.upHeapF 1
        ({ count := 2, items := [0, 3, 5], comparator := (fun a b : Nat => decide (a < b)) }
          : Heap Nat) 1
      = some (({ count := 2, items := [0, 3, 5], comparator := (fun a b : Nat => decide (a < b)) } : Heap Nat).upHeap 1) :=
  ⟨by decide, by decide, by decide,
    (c8_repair_loops_terminate _ 1 (by decide) 1 2 (by decide) (by decide)).1⟩

/-- Claim C9: the index helpers are pure and compute the specified formulas:
`parent_idx i = i / 2`, `left_child_idx i = 2 * i`,
`right_child_idx i = 2 * i + 1`, `children_present i` holds iff
`2 * i ≤ count`, and `smallest_child_idx i` is the right child index exactly
when that index is `≤ count` and the comparator prefers the right child,
otherwise the left child index. -/
theorem c9_index_helpers {α : Type} [Inhabited α] (h : Heap α) (idx : Nat) :
    h.parent_idx idx = idx / 2 ∧
    h.left_child_idx idx = 2 * idx ∧
    h.right_child_idx idx = 2 * idx + 1 ∧
    (h.children_present idx = true ↔ 2 * idx ≤ h.count) ∧
    h.smallest_child_idx idx =
      (if 2 * idx + 1 ≤ h.count ∧
          h.comparator (h.items.getD (2 * idx + 1) default)
            (h.items.getD (2 * idx) default) = true
        then 2 * idx + 1 else 2 * idx) := by
  have hmul : idx * 2 = 2 * idx := Nat.mul_comm idx 2
  refine ⟨rfl, hmul, ?_, ?_, ?_⟩
  · unfold Heap.right_child_idx Heap.left_child_idx
    omega
  · unfold Heap.children_present Heap.left_child_idx
    simp only [decide_eq_true_eq]
    omega
  · unfold Heap.smallest_child_idx Heap.right_child_idx Heap.left_child_idx
    rw [hmul]

/-- Claim C10: every heap reachable from construction keeps a backing vector
with at least `count + 1` slots, and slot 0 still holds the default
sentinel. -/
theorem c10_reachable_invariant {α : Type} [Inhabited α] (cmp : α → α → Bool)
    (ops : List (HeapOp α)) :
    (runHeap (Heap.new cmp) ops).count + 1 ≤ (runHeap (Heap.new cmp) ops).items.length ∧
    (runHeap (Heap.new cmp) ops).items.getD 0 default = default ∧
    (runHeap (Heap.new cmp) ops).items[0]? = some default := by
  have hwf := runS_wf (Heap.new cmp) ops (Heap.new_wf cmp)
  refine ⟨hwf.1, ?_, hwf.2⟩
  show (runS (Heap.new cmp) ops).1.items.getD 0 default = default
  simp [hwf.2]
